import Mathlib

/-!
Verification development for the Nortel Millennium VoiceWare ROM decoder
(`nortel-voiceware-decoder.c`).  The definitions below are a shallow
embedding of the C source: ROM images are lists of byte values (`Nat`),
machine integers are `Int` with explicit wrap-around where the C code can
overflow, and the ADPCM command-stream loop of `process_message` is
embedded as a fuel-indexed step function over an explicit state record.
-/

namespace Voiceware

/-- The uPD7759 step table `step_table[16][16]` from the C source, verbatim. -/
def step_table : List (List Int) :=
  [ [ 0, 0, 1, 2, 3, 5, 7, 10, 0, 0, -1, -2, -3, -5, -7, -10 ],
    [ 0, 1, 2, 3, 4, 6, 8, 13, 0, -1, -2, -3, -4, -6, -8, -13 ],
    [ 0, 1, 2, 4, 5, 7, 10, 15, 0, -1, -2, -4, -5, -7, -10, -15 ],
    [ 0, 1, 3, 4, 6, 9, 13, 19, 0, -1, -3, -4, -6, -9, -13, -19 ],
    [ 0, 2, 3, 5, 8, 11, 15, 23, 0, -2, -3, -5, -8, -11, -15, -23 ],
    [ 0, 2, 4, 7, 10, 14, 19, 29, 0, -2, -4, -7, -10, -14, -19, -29 ],
    [ 0, 3, 5, 8, 12, 16, 22, 33, 0, -3, -5, -8, -12, -16, -22, -33 ],
    [ 1, 4, 7, 10, 15, 20, 29, 43, -1, -4, -7, -10, -15, -20, -29, -43 ],
    [ 1, 4, 8, 13, 18, 25, 35, 53, -1, -4, -8, -13, -18, -25, -35, -53 ],
    [ 1, 6, 10, 16, 22, 31, 43, 64, -1, -6, -10, -16, -22, -31, -43, -64 ],
    [ 2, 7, 12, 19, 27, 37, 51, 76, -2, -7, -12, -19, -27, -37, -51, -76 ],
    [ 2, 9, 16, 24, 34, 46, 64, 96, -2, -9, -16, -24, -34, -46, -64, -96 ],
    [ 3, 11, 19, 29, 41, 57, 79, 117, -3, -11, -19, -29, -41, -57, -79, -117 ],
    [ 4, 13, 24, 36, 50, 69, 96, 143, -4, -13, -24, -36, -50, -69, -96, -143 ],
    [ 4, 16, 29, 44, 62, 85, 118, 175, -4, -16, -29, -44, -62, -85, -118, -175 ],
    [ 6, 20, 36, 54, 76, 104, 144, 214, -6, -20, -36, -54, -76, -104, -144, -214 ] ]

/-- The state adjustment table `state_table[16]` from the C source. -/
def state_table : List Int :=
  [ -1, -1, 0, 0, 1, 2, 2, 3, -1, -1, 0, 0, 1, 2, 2, 3 ]

/-- Lookup `step_table[i][n]` (as the C array indexing does). -/
def stepAt (i n : Nat) : Int := (step_table.getD i []).getD n 0

/-- Lookup `state_table[n]`. -/
def stateAt (n : Nat) : Int := state_table.getD n 0

/-- The C `struct adpcm_state`: the decoder predictor state.  `current_sample`
is the C `int16_t` field, `adpcm_state` the `int8_t` step index. -/
structure AdpcmState where
  current_sample : Int
  adpcm_state : Int
  deriving Repr, DecidableEq

/-- Two's-complement wrap of an integer into the `int16_t` range, used to
model the C cast `(int16_t)` of a wider value. -/
def toInt16 (x : Int) : Int := (x + 32768) % 65536 - 32768

/-- The C `decode_nibble()`: consumes one 4-bit nibble,
updates the predictor state and produces the PCM sample that
`add_pcm_sample` appends.  Mirrors the defensive state reset, the clamp
of `current_sample`, the clamp of the step index, the `(int16_t)` cast of
`current_sample << 7` and the two diff-sign-gated overrides. -/
def decode_nibble (nibble : Nat) (st : AdpcmState) : AdpcmState × Int :=
  let s0 : Int := if st.adpcm_state < 0 ∨ 15 < st.adpcm_state then 0 else st.adpcm_state
  let diff : Int := stepAt s0.toNat nibble
  let next_sample : Int := st.current_sample + diff
  let cs : Int :=
    if 32767 < next_sample then 32767
    else if next_sample < -32768 then -32768
    else next_sample
  let next_state : Int := s0 + stateAt nibble
  let idx : Int :=
    if next_state < 0 then 0
    else if 15 < next_state then 15
    else next_state
  let pcm0 : Int := toInt16 (cs * 128)
  let pcm1 : Int := if 255 < cs ∧ 0 < diff then 32767 else pcm0
  let pcm2 : Int := if cs < -256 ∧ diff < 0 then -32768 else pcm1
  (⟨cs, idx⟩, pcm2)

/-- The local state of the ADPCM decoding loop in `process_message`:
read cursor `pos` (`current_pos`), pending nibble count `nc`
(`nibble_count`), `rc` (`repeat_count`), `rs`/`rcm`
(`current_repeat_nibble_start` / `current_repeat_nibble_count`), the
predictor state and the PCM buffer. -/
structure LoopSt where
  pos : Nat
  nc : Nat
  rc : Nat
  rs : Nat
  rcm : Nat
  adpcm : AdpcmState
  buf : List Int
  deriving Repr, DecidableEq

/-- One pass of the nibble-decoding phase body: read the byte at `pos`,
decode its high nibble, and its low nibble too when more than one nibble
is still pending (exactly the `nibble1`/`nibble2` code in the C loop). -/
def nibbleStep (rom : List Nat) (st : LoopSt) : LoopSt :=
  let b := rom.getD st.pos 0
  let r1 := decode_nibble (b / 16 % 16) st.adpcm
  if 0 < st.nc - 1 then
    let r2 := decode_nibble (b % 16) r1.1
    { st with pos := st.pos + 1, nc := st.nc - 2, adpcm := r2.1,
              buf := st.buf ++ [r1.2, r2.2] }
  else
    { st with pos := st.pos + 1, nc := st.nc - 1, adpcm := r1.1,
              buf := st.buf ++ [r1.2] }

/-- The repeat-block bookkeeping executed after the nibble phase
(`if (repeat_count > 0 && nibble_count == 0) ...` in the C loop). -/
def stepRepeat (st : LoopSt) : LoopSt :=
  if 0 < st.rc ∧ st.nc = 0 then
    if 0 < st.rc - 1 then
      { st with rc := st.rc - 1, pos := st.rs, nc := st.rcm }
    else
      { st with rc := 0, rs := 0, rcm := 0 }
  else st

/-- How the ADPCM loop of `process_message` ended.  `finished` is the
`0x00` end-of-message opcode, `truncated` is the loop guard
`current_pos < rom_size` failing (the loop simply exits).  The error
constructors correspond one-to-one to the `decoding_ok = false` breaks
in the C source; `errCmdTrunc` carries `pcm_buffer.count > 0` because
that branch sets `decoding_ok = (pcm_buffer.count > 0)`. -/
inductive DecodeStatus where
  | finished
  | truncated
  | errNibbleData
  | errCmdTrunc (hadSamples : Bool)
  | errLongN
  | errRepeatN
  | errUnknown
  deriving Repr, DecidableEq

/-- The command-reading phase body of the C loop.  Returns `.inl` with a
final status when the loop breaks or terminates, `.inr` with the new
state when the loop continues. -/
def cmdStep (rom : List Nat) (st : LoopSt) : (DecodeStatus × LoopSt) ⊕ LoopSt :=
  if rom.length ≤ st.pos then .inl (.errCmdTrunc (!st.buf.isEmpty), st)
  else
    let c := rom.getD st.pos 0
    let p1 := st.pos + 1
    if c = 0 then .inl (.finished, { st with pos := p1 })
    else if c ≤ 0x3F then
      .inr { st with pos := p1, buf := st.buf ++ List.replicate (8 * c) 0 }
    else if c ≤ 0x7F then
      .inr { st with pos := p1, nc := 256, rc := 0 }
    else if c ≤ 0xBF then
      if rom.length ≤ p1 then .inl (.errLongN, { st with pos := p1 })
      else .inr { st with pos := p1 + 1, nc := rom.getD p1 0 + 1, rc := 0 }
    else if c ≤ 0xFF then
      if rom.length ≤ p1 then .inl (.errRepeatN, { st with pos := p1 })
      else .inr { st with pos := p1 + 1, nc := rom.getD p1 0 + 1,
                          rc := c / 8 % 8, rs := p1 + 1, rcm := rom.getD p1 0 + 1 }
    else .inl (.errUnknown, { st with pos := p1 })

/-- The ADPCM decoding loop `while (!end_of_message && current_pos < rom_size)`
of `process_message`, fuel-indexed (`none` means the fuel ran out; every
actual exit of the C loop returns `some`). -/
def decodeLoop (rom : List Nat) : Nat → LoopSt → Option (DecodeStatus × LoopSt)
  | 0, _ => none
  | f + 1, st =>
    if st.pos < rom.length then
      if 0 < st.nc then
        if rom.length ≤ st.pos then some (.errNibbleData, st)
        else decodeLoop rom f (stepRepeat (nibbleStep rom st))
      else
        match cmdStep rom st with
        | .inl r => some r
        | .inr st1 => decodeLoop rom f st1
    else some (.truncated, st)

/-- The value of `decoding_ok` at loop exit for each way the loop ends. -/
def statusOk : DecodeStatus → Bool
  | .finished => true
  | .truncated => true
  | .errCmdTrunc hadSamples => hadSamples
  | _ => false

/-- Outcome of `process_message` for one message record. -/
inductive MsgOutcome where
  | skippedOOB
  | wavWritten (samples : List Int)
  | noSamples
  | decodeFailed
  | rawPcm (bytes : List Nat)
  | rawPcmSkipped
  | unknownMode (mode : Nat)
  deriving Repr, DecidableEq

/-- The post-loop decision in `process_message`:
`if (decoding_ok && pcm_buffer.count > 0)` write the WAV, else if
`decoding_ok` report zero samples, else report a decode failure (the
buffer is freed either way). -/
def adpcmFinish (r : DecodeStatus × LoopSt) : MsgOutcome :=
  if statusOk r.1 && !r.2.buf.isEmpty then .wavWritten r.2.buf
  else if statusOk r.1 then .noSamples
  else .decodeFailed

/-- Fuel that is ample for every terminating run on `rom` (each play of a
block advances the cursor, and a block is replayed at most 7 times). -/
def decodeFuel (rom : List Nat) : Nat := 9 * rom.length + 9

/-- The C `process_message()` (decode mode): bounds-check the
start address, read the mode byte, and dispatch to the ADPCM decoder, the
raw-PCM save, or the unknown-mode warning.  Returns `none` only if the
decode fuel runs out. -/
def process_message (rom : List Nat) (segStart msgOff nextOff : Nat) :
    Option MsgOutcome :=
  let start := segStart + msgOff
  if rom.length ≤ start then some .skippedOOB
  else
    let mode := rom.getD start 0
    if mode = 0x00 then
      (decodeLoop rom (decodeFuel rom) ⟨start + 1, 0, 0, 0, 0, ⟨0, 0⟩, []⟩).map
        adpcmFinish
    else if mode = 0x40 then
      let endOff := min (segStart + nextOff) rom.length
      if endOff ≤ start then some .rawPcmSkipped
      else some (.rawPcm ((rom.drop start).take (endOff - start)))
    else some (.unknownMode mode)

/-- The C `read_u16be()`: big-endian 16-bit read. -/
def read_u16be (rom : List Nat) (i : Nat) : Nat :=
  rom.getD i 0 * 256 + rom.getD (i + 1) 0

/-- The C constant `ROM_SEGMENT_SIZE`. -/
def ROM_SEGMENT_SIZE : Nat := 131072

/-- The 4-byte magic check `memcmp(rom_data + segment_start + 1, ROM_MAGIC, 4) == 0`. -/
def magicOk (rom : List Nat) (segStart : Nat) : Prop :=
  rom.getD (segStart + 1) 0 = 0x5A ∧ rom.getD (segStart + 2) 0 = 0xA5 ∧
  rom.getD (segStart + 3) 0 = 0x69 ∧ rom.getD (segStart + 4) 0 = 0x55

instance (rom : List Nat) (segStart : Nat) : Decidable (magicOk rom segStart) := by
  unfold magicOk; infer_instance

/-- The segment walk of `main` in decode mode with no target index
(`target_message_idx = -1`): processes each segment's header, offset
table and messages, accumulating each message's outcome.  The returned
`Bool` is `exit_code == EXIT_SUCCESS`.  Faithful to the loop at the end
of `main`: an incomplete header or bad magic is fatal only for segment 0;
an offset table overrunning the ROM or the segment is always fatal. -/
def walkFrom (rom : List Nat) (segStart segIdx absCtr : Nat)
    (acc : List (Option MsgOutcome)) : Bool × List (Option MsgOutcome) :=
  if segStart < rom.length then
    if rom.length < segStart + 5 then (segIdx != 0, acc)
    else if ¬ magicOk rom segStart then (segIdx != 0, acc)
    else
      let M := rom.getD segStart 0 + 1
      if rom.length < segStart + 5 + 2 * M ∨ segStart + ROM_SEGMENT_SIZE < segStart + 5 + 2 * M then
        (false, acc)
      else
        let outs := (List.range M).map (fun k =>
          let off := 2 * read_u16be rom (segStart + 5 + 2 * k)
          let nxt := if k + 1 < M then 2 * read_u16be rom (segStart + 5 + 2 * (k + 1))
                     else ROM_SEGMENT_SIZE
          process_message rom segStart off nxt)
        walkFrom rom (segStart + ROM_SEGMENT_SIZE) (segIdx + 1) (absCtr + M) (acc ++ outs)
  else (true, acc)
  termination_by rom.length - segStart
  decreasing_by simp_wf; omega

/-- The whole decode-mode run over a ROM image. -/
def walk (rom : List Nat) : Bool × List (Option MsgOutcome) :=
  walkFrom rom 0 0 0 []

/-- The `%03d` formatting of a non-negative index, as `snprintf` does. -/
def pad3 (n : Nat) : String :=
  if n < 10 then "00" ++ toString n
  else if n < 100 then "0" ++ toString n
  else toString n

/-- The default output filename base `message_<seg>_<%03d msg>`. -/
def defaultBase (seg msg : Nat) : String :=
  "message_" ++ toString seg ++ "_" ++ pad3 msg

/-- Whether `needle` occurs as a prefix of `hay` (character lists). -/
def charsLeadWith : List Char → List Char → Bool
  | [], _ => true
  | _ :: _, [] => false
  | a :: as, b :: bs => a = b && charsLeadWith as bs

/-- Whether `needle` occurs as a contiguous run inside `hay`, modelling
the C `strstr(hay, needle) != NULL` test. -/
def charsContain (needle : List Char) : List Char → Bool
  | [] => charsLeadWith needle []
  | c :: rest => charsLeadWith needle (c :: rest) || charsContain needle rest

/-- The C test `strstr(hay, needle) != NULL` on strings. -/
def strContains (hay needle : String) : Bool := charsContain needle.data hay.data

/-- The comment-building block of the list-mode branch of
`handle_message_iteration`: start from `"#"`, append `" (PCM)"` when the
mode byte was readable, equals `0x40` and the map comment does not
already contain `"(PCM)"`, then append the map comment (preceded by one
space), or a single space when there is no comment and no tag. -/
def buildComment (modeReadOk : Bool) (mode : Nat) (userComment : Option String) :
    String :=
  let pcmAlready := match userComment with
    | some c => strContains c "(PCM)"
    | none => false
  let hasUser := match userComment with
    | some c => decide (0 < c.length)
    | none => false
  let tagAdded := modeReadOk && (mode == 0x40) && !pcmAlready
  let b1 := if tagAdded then "#" ++ " (PCM)" else "#"
  if hasUser then
    (if tagAdded || (b1 == "#") then b1 ++ " " else b1) ++
      (match userComment with | some c => c | none => "")
  else if !tagAdded then b1 ++ " "
  else b1

/-- The padding-tab computation of the list-mode branch:
`num_stops = len / TAB_WIDTH`,
`target_stops = (LIST_FILENAME_ALIGN_WIDTH + TAB_WIDTH - 1) / TAB_WIDTH`,
print `target - num` tabs when below target and one tab otherwise. -/
def tabsFor (base : String) : Nat :=
  let numStops := base.length / 8
  let targetStops := (40 + 8 - 1) / 8
  if numStops < targetStops then targetStops - numStops else 1

/-- The full listing line printed by the list-mode branch of
`handle_message_iteration` for one record: the two indices and the
filename base separated by tabs, the padding tabs, the comment field and
the newline.  `mapping` is the looked-up map entry
(filename base, optional comment). -/
def listLine (rom : List Nat) (segIdx msgIdx : Nat)
    (mapping : Option (String × Option String)) (startAddr : Nat) : String :=
  let base := match mapping with
    | some p => p.1
    | none => defaultBase segIdx msgIdx
  let userComment := match mapping with
    | some p => p.2
    | none => none
  let modeReadOk := decide (startAddr < rom.length)
  let mode := if startAddr < rom.length then rom.getD startAddr 0 else 0xFF
  toString segIdx ++ "\t" ++ toString msgIdx ++ "\t" ++ base ++
    String.mk (List.replicate (tabsFor base) '\t') ++
    buildComment modeReadOk mode userComment ++ "\n"

/-- The list-mode record line with the start address computed from the
segment's offset table, as `handle_message_iteration` computes it:
`start_address = segment_start + 2 * offset_table[msg_idx]`. -/
def listLineFor (rom : List Nat) (segStart segIdx msgIdx : Nat)
    (mapping : Option (String × Option String)) : String :=
  listLine rom segIdx msgIdx mapping
    (segStart + 2 * read_u16be rom (segStart + 5 + 2 * msgIdx))

/-- Validity of the predictor state: `current_sample` in the `int16_t`
range and the step index within the table bounds. -/
def validAdpcm (s : AdpcmState) : Prop :=
  -32768 ≤ s.current_sample ∧ s.current_sample ≤ 32767 ∧
  0 ≤ s.adpcm_state ∧ s.adpcm_state ≤ 15

instance (s : AdpcmState) : Decidable (validAdpcm s) := by
  unfold validAdpcm; infer_instance

/-- Modelled from the spec: `clamp(x, −32768, 32767)`, the saturation the
spec's §4.A step 4 prescribes for the output sample.  Used only to
compare the code's actual output against the spec's words. -/
def clampInt16 (x : Int) : Int := max (-32768) (min 32767 x)

/-- Run `decode_nibble` over a list of nibbles, returning the final
predictor state and the emitted samples in order. -/
def nibbleRun (s : AdpcmState) : List Nat → AdpcmState × List Int
  | [] => (s, [])
  | n :: rest =>
      let r := decode_nibble n s
      let t := nibbleRun r.1 rest
      (t.1, r.2 :: t.2)

/-- The nibble stream starting at byte `pos` of the ROM: high nibble then
low nibble of each byte. -/
def nibblesFrom (rom : List Nat) (pos : Nat) : List Nat :=
  (rom.drop pos).flatMap (fun b => [b / 16 % 16, b % 16])

/-! Shared helper lemmas about single iterations of the decoding loop. -/

theorem decodeLoop_succ_nibble (rom : List Nat) (f : Nat) (st : LoopSt)
    (hpos : st.pos < rom.length) (hnc : 0 < st.nc) :
    decodeLoop rom (f + 1) st = decodeLoop rom f (stepRepeat (nibbleStep rom st)) := by
  rw [decodeLoop, if_pos hpos, if_pos hnc, if_neg (by omega)]

theorem decodeLoop_succ_cmd (rom : List Nat) (f : Nat) (st : LoopSt)
    (hpos : st.pos < rom.length) (hnc : st.nc = 0) :
    decodeLoop rom (f + 1) st
      = match cmdStep rom st with
        | .inl r => some r
        | .inr st1 => decodeLoop rom f st1 := by
  rw [decodeLoop, if_pos hpos, if_neg (by omega)]

theorem decodeLoop_succ_oob (rom : List Nat) (f : Nat) (st : LoopSt)
    (hpos : rom.length ≤ st.pos) :
    decodeLoop rom (f + 1) st = some (.truncated, st) := by
  rw [decodeLoop, if_neg (by omega)]

theorem stepRepeat_rc0 (st : LoopSt) (h : st.rc = 0) : stepRepeat st = st := by
  unfold stepRepeat
  rw [if_neg (by omega)]

theorem cmdStep_silence (rom : List Nat) (st : LoopSt) (c : Nat)
    (hc : rom.getD st.pos 0 = c) (h1 : 1 ≤ c) (h2 : c ≤ 0x3F)
    (hpos : st.pos < rom.length) :
    cmdStep rom st
      = .inr { st with pos := st.pos + 1,
                       buf := st.buf ++ List.replicate (8 * c) 0 } := by
  simp only [cmdStep, hc]
  rw [if_neg (by omega : ¬ rom.length ≤ st.pos), if_neg (by omega : ¬ c = 0),
      if_pos h2]

theorem cmdStep_longBlock (rom : List Nat) (st : LoopSt) (c : Nat)
    (hc : rom.getD st.pos 0 = c) (h1 : 0x80 ≤ c) (h2 : c ≤ 0xBF)
    (hpos1 : st.pos + 1 < rom.length) :
    cmdStep rom st
      = .inr { st with pos := st.pos + 1 + 1,
                       nc := rom.getD (st.pos + 1) 0 + 1, rc := 0 } := by
  simp only [cmdStep, hc]
  rw [if_neg (by omega : ¬ rom.length ≤ st.pos), if_neg (by omega : ¬ c = 0),
      if_neg (by omega : ¬ c ≤ 0x3F), if_neg (by omega : ¬ c ≤ 0x7F),
      if_pos h2, if_neg (by omega : ¬ rom.length ≤ st.pos + 1)]

/-- C1: the stream `C8 01 11 00` (repeat command with `r = 1`, a
two-nibble block, then end-of-message) decodes to exactly 2 samples, not
the `2·(n+1) = 4` the claim (and the decoder's own verbose diagnostic
`"R=1 -> 2 plays total"`) state: the repeat handler decrements
`repeat_count` before testing it, so `r = 1` plays the block once. -/
theorem repeat_r1_plays_block_once :
    process_message [0x00, 0xC8, 0x01, 0x11, 0x00] 0 0 ROM_SEGMENT_SIZE
      = some (MsgOutcome.wavWritten [0, 0]) ∧ ([(0 : Int), 0].length = 2) := by
  constructor
  · decide
  · rfl

/-- C2 counterexample: a message whose ADPCM stream is a lone silence
command `0x01` with no end-of-message opcode (the ROM ends right after
it).  The claim says this truncation must fail with an error and discard
the 8 samples; the code exits the loop with `decoding_ok = true` and
writes a WAV holding the 8 samples. -/
theorem truncated_after_silence_writes_wav :
    process_message [0x00, 0x01] 0 0 ROM_SEGMENT_SIZE
      = some (MsgOutcome.wavWritten (List.replicate 8 0)) ∧
    MsgOutcome.wavWritten (List.replicate 8 0) ≠ MsgOutcome.decodeFailed := by
  constructor
  · decide
  · decide

/-- C3 counterexample: decoding the stream `80 07 77 77 77 78 00` drives
`current_sample` to 665 and then applies a negative-diff nibble; the
emitted sample is the wrapped value `19584`, not
`clamp(665 << 7) = 32767` as the claim states. -/
theorem scaled_sample_not_clamped :
    decodeLoop [0x80, 0x07, 0x77, 0x77, 0x77, 0x78, 0x00] 20
        ⟨0, 0, 0, 0, 0, ⟨0, 0⟩, []⟩
      = some (DecodeStatus.finished,
          ⟨7, 0, 0, 0, 0, ⟨665, 14⟩,
           [1280, 3712, 7936, 16128, 31104, 32767, 32767, 19584]⟩) ∧
    clampInt16 (665 * 128) = 32767 ∧ (19584 : Int) ≠ 32767 := by
  refine ⟨by decide, by decide, by decide⟩

/-- C8 counterexample: for the single-message ROM
`00 5A A5 69 55 00 03` the listing line is
`0\t0\tmessage_0_000` + 4 tabs + `"# "` + newline: the code always puts
a space after the `#` when there is no map comment and no PCM tag, so
the claimed line with nothing between `#` and the newline is wrong. -/
theorem list_line_has_space_after_hash :
    listLineFor [0x00, 0x5A, 0xA5, 0x69, 0x55, 0x00, 0x03] 0 0 0 none
      = "0\t0\tmessage_0_000\t\t\t\t# \n" ∧
    "0\t0\tmessage_0_000\t\t\t\t# \n" ≠ "0\t0\tmessage_0_000\t\t\t\t#\n" := by
  constructor
  · decide
  · decide

/-- C8 amended: the listing line for that ROM is the record fields, then
`max(5 − ⌊13/8⌋, 1) = 4` padding tabs, then `#`, one space, and the
newline. -/
theorem list_line_concrete_amended :
    listLineFor [0x00, 0x5A, 0xA5, 0x69, 0x55, 0x00, 0x03] 0 0 0 none
      = "0\t0\tmessage_0_000" ++ String.mk (List.replicate 4 '\t') ++ "# " ++ "\n" ∧
    tabsFor "message_0_000" = max (5 - 13 / 8) 1 := by
  constructor
  · decide
  · decide

/-- C7: a silence command byte `c` in `0x01..0x3F` makes the decoder
append exactly `8·c` zero samples and continue at the next byte with the
predictor state (`current_sample`, `step_index`) unchanged. -/
theorem silence_command_effect (rom : List Nat) (f pos rs rcm c : Nat)
    (s : AdpcmState) (buf : List Int)
    (hc : rom.getD pos 0 = c) (h1 : 1 ≤ c) (h2 : c ≤ 0x3F)
    (hpos : pos < rom.length) :
    decodeLoop rom (f + 1) ⟨pos, 0, 0, rs, rcm, s, buf⟩
      = decodeLoop rom f
          ⟨pos + 1, 0, 0, rs, rcm, s, buf ++ List.replicate (8 * c) 0⟩ := by
  rw [decodeLoop_succ_cmd rom f _ hpos rfl,
      cmdStep_silence rom ⟨pos, 0, 0, rs, rcm, s, buf⟩ c hc h1 h2 hpos]

/-- Witness for `silence_command_effect` at the one-byte stream `3F`. -/
theorem silence_command_effect_witness :
    ([(0x3F : Nat)].getD 0 0 = 0x3F ∧ 1 ≤ 0x3F ∧ 0x3F ≤ 0x3F ∧
      0 < [(0x3F : Nat)].length) ∧
    decodeLoop [0x3F] (0 + 1) ⟨0, 0, 0, 0, 0, ⟨0, 0⟩, []⟩
      = decodeLoop [0x3F] 0
          ⟨0 + 1, 0, 0, 0, 0, ⟨0, 0⟩, [] ++ List.replicate (8 * 0x3F) 0⟩ :=
  ⟨⟨rfl, by decide, by decide, by decide⟩,
   silence_command_effect [0x3F] 0 0 0 0 0x3F ⟨0, 0⟩ [] rfl (by decide)
     (by decide) (by decide)⟩

/-- C2 amended: where the ADPCM stream actually errors on truncation.
Running out of bytes while a nibble is pending or before a command byte
makes the loop exit through its guard with `decoding_ok` still true, so
a WAV holding the samples produced so far is written whenever the buffer
is non-empty.  Only running out of bytes while reading the length byte
`n` of a long (`0x80..0xBF`) or repeat (`0xC0..0xFF`) block is an error:
the decode fails and no WAV is written, discarding any samples. -/
theorem truncation_outcomes (rom : List Nat) (f pos rs rcm m : Nat)
    (s : AdpcmState) (buf : List Int) :
    (rom.length ≤ pos →
      decodeLoop rom (f + 1) ⟨pos, m, 0, rs, rcm, s, buf⟩
        = some (DecodeStatus.truncated, ⟨pos, m, 0, rs, rcm, s, buf⟩) ∧
      (buf ≠ [] →
        adpcmFinish (DecodeStatus.truncated, ⟨pos, m, 0, rs, rcm, s, buf⟩)
          = MsgOutcome.wavWritten buf)) ∧
    (pos + 1 = rom.length → 0x80 ≤ rom.getD pos 0 → rom.getD pos 0 ≤ 0xFF →
      decodeLoop rom (f + 1) ⟨pos, 0, 0, rs, rcm, s, buf⟩
        = some ((if rom.getD pos 0 ≤ 0xBF then DecodeStatus.errLongN
                 else DecodeStatus.errRepeatN),
                ⟨pos + 1, 0, 0, rs, rcm, s, buf⟩) ∧
      (∀ st2 : LoopSt,
        adpcmFinish ((if rom.getD pos 0 ≤ 0xBF then DecodeStatus.errLongN
                      else DecodeStatus.errRepeatN), st2)
          = MsgOutcome.decodeFailed)) := by
  constructor
  · intro hoob
    refine ⟨decodeLoop_succ_oob rom f _ hoob, ?_⟩
    intro hbuf
    simp [adpcmFinish, statusOk, hbuf]
  · intro hend hlo hhi
    have hpos : pos < rom.length := by omega
    rw [decodeLoop_succ_cmd rom f _ hpos rfl]
    have hcmd : cmdStep rom ⟨pos, 0, 0, rs, rcm, s, buf⟩
        = .inl ((if rom.getD pos 0 ≤ 0xBF then DecodeStatus.errLongN
                 else DecodeStatus.errRepeatN),
                ⟨pos + 1, 0, 0, rs, rcm, s, buf⟩) := by
      simp only [cmdStep]
      rw [if_neg (by omega : ¬ rom.length ≤ pos),
          if_neg (by omega : ¬ rom.getD pos 0 = 0),
          if_neg (by omega : ¬ rom.getD pos 0 ≤ 0x3F),
          if_neg (by omega : ¬ rom.getD pos 0 ≤ 0x7F)]
      by_cases hb : rom.getD pos 0 ≤ 0xBF
      · rw [if_pos hb, if_pos (by omega : rom.length ≤ pos + 1), if_pos hb]
      · rw [if_neg hb, if_pos hhi, if_pos (by omega : rom.length ≤ pos + 1),
            if_neg hb]
    rw [hcmd]
    refine ⟨rfl, ?_⟩
    intro st2
    by_cases hb : rom.getD pos 0 ≤ 0xBF
    · rw [if_pos hb]; simp [adpcmFinish, statusOk]
    · rw [if_neg hb]; simp [adpcmFinish, statusOk]

/-- Witness for `truncation_outcomes`: a ROM that is a lone `0x80`
command byte, whose length byte is missing. -/
theorem truncation_outcomes_witness :
    (0 + 1 = [(0x80 : Nat)].length ∧ 0x80 ≤ [(0x80 : Nat)].getD 0 0 ∧
      [(0x80 : Nat)].getD 0 0 ≤ 0xFF) ∧
    decodeLoop [0x80] (0 + 1) ⟨0, 0, 0, 0, 0, ⟨0, 0⟩, []⟩
      = some ((if [(0x80 : Nat)].getD 0 0 ≤ 0xBF then DecodeStatus.errLongN
               else DecodeStatus.errRepeatN),
              ⟨0 + 1, 0, 0, 0, 0, ⟨0, 0⟩, []⟩) :=
  ⟨⟨rfl, by decide, by decide⟩,
   ((truncation_outcomes [0x80] 0 0 0 0 0 ⟨0, 0⟩ []).2 rfl (by decide)
     (by decide)).1⟩

/-- C5: when the segment walk reaches segment `segIdx` and its 5-byte
header is truncated or its magic does not match `5A A5 69 55`, the walk
stops immediately: fatally (`EXIT_FAILURE`) for segment 0, cleanly
(`EXIT_SUCCESS`) for every later segment, keeping the accumulated
outputs of all earlier segments' messages either way. -/
theorem segment_header_failure_policy (rom : List Nat)
    (segStart segIdx absCtr : Nat) (acc : List (Option MsgOutcome))
    (hin : segStart < rom.length)
    (hbad : rom.length < segStart + 5 ∨ ¬ magicOk rom segStart) :
    walkFrom rom segStart segIdx absCtr acc = (segIdx != 0, acc) := by
  rw [walkFrom, if_pos hin]
  by_cases h5 : rom.length < segStart + 5
  · rw [if_pos h5]
  · have hm : ¬ magicOk rom segStart := by tauto
    rw [if_neg h5, if_pos hm]

/-- Witness for `segment_header_failure_policy`: a 3-byte ROM seen as
segment 1 with some earlier output in the accumulator. -/
theorem segment_header_failure_policy_witness :
    ((0 : Nat) < [(1 : Nat), 2, 3].length ∧
      ([(1 : Nat), 2, 3].length < 0 + 5 ∨ ¬ magicOk [1, 2, 3] 0)) ∧
    walkFrom [1, 2, 3] 0 1 0 [some MsgOutcome.noSamples]
      = ((1 : Nat) != 0, [some MsgOutcome.noSamples]) :=
  ⟨⟨by decide, Or.inl (by decide)⟩,
   segment_header_failure_policy [1, 2, 3] 0 1 0 [some MsgOutcome.noSamples]
     (by decide) (Or.inl (by decide))⟩

theorem cmdStep_no_nibble_err (rom : List Nat) (st : LoopSt)
    (p : DecodeStatus × LoopSt) (h : cmdStep rom st = .inl p) :
    p.1 ≠ DecodeStatus.errNibbleData := by
  simp only [cmdStep] at h
  split_ifs at h <;> (injection h with h2; subst h2; simp)

/-- C9: the truncation check inside the nibble-decoding branch (the
`"while reading ADPCM data nibble"` error) can never fire: whenever the
loop body runs with a positive nibble count, the loop guard has already
established `current_pos < rom_size`, so no run of the loop, from any
state, ever ends with that error. -/
theorem nibble_truncation_unreachable (rom : List Nat) :
    ∀ (f : Nat) (st : LoopSt) (r : DecodeStatus × LoopSt),
      decodeLoop rom f st = some r → r.1 ≠ DecodeStatus.errNibbleData := by
  intro f
  induction f with
  | zero => intro st r h; simp [decodeLoop] at h
  | succ f ih =>
    intro st r h
    rw [decodeLoop] at h
    by_cases hp : st.pos < rom.length
    · rw [if_pos hp] at h
      by_cases hn : 0 < st.nc
      · rw [if_pos hn, if_neg (by omega)] at h
        exact ih _ _ h
      · rw [if_neg hn] at h
        cases hcs : cmdStep rom st with
        | inl p =>
            rw [hcs] at h
            have h2 : some p = some r := h
            cases h2
            exact cmdStep_no_nibble_err rom st _ hcs
        | inr st1 =>
            rw [hcs] at h
            exact ih _ _ h
    · rw [if_neg hp] at h
      have h2 : some (DecodeStatus.truncated, st) = some r := h
      cases h2
      simp

/-- Witness for `nibble_truncation_unreachable`: the one-command stream
`00` reaches end-of-message, which is not the nibble-truncation error. -/
theorem nibble_truncation_unreachable_witness :
    decodeLoop [0] 1 ⟨0, 0, 0, 0, 0, ⟨0, 0⟩, []⟩
      = some (DecodeStatus.finished, ⟨1, 0, 0, 0, 0, ⟨0, 0⟩, []⟩) ∧
    (DecodeStatus.finished, (⟨1, 0, 0, 0, 0, ⟨0, 0⟩, []⟩ : LoopSt)).1
      ≠ DecodeStatus.errNibbleData :=
  ⟨by decide,
   nibble_truncation_unreachable [0] 1 ⟨0, 0, 0, 0, 0, ⟨0, 0⟩, []⟩
     (DecodeStatus.finished, ⟨1, 0, 0, 0, 0, ⟨0, 0⟩, []⟩) (by decide)⟩

theorem decode_nibble_valid (n : Nat) (s : AdpcmState) :
    validAdpcm (decode_nibble n s).1 := by
  dsimp only [decode_nibble, validAdpcm]
  split_ifs <;> refine ⟨by omega, by omega, by omega, by omega⟩

theorem stepRepeat_adpcm (st : LoopSt) : (stepRepeat st).adpcm = st.adpcm := by
  unfold stepRepeat
  split_ifs <;> rfl

theorem nibbleStep_valid (rom : List Nat) (st : LoopSt) :
    validAdpcm (nibbleStep rom st).adpcm := by
  unfold nibbleStep
  dsimp only
  split_ifs
  · exact decode_nibble_valid _ _
  · exact decode_nibble_valid _ _

theorem cmdStep_adpcm (rom : List Nat) (st : LoopSt) :
    (∀ p, cmdStep rom st = .inl p → p.2.adpcm = st.adpcm) ∧
    (∀ st1, cmdStep rom st = .inr st1 → st1.adpcm = st.adpcm) := by
  constructor <;> intro x h <;> (simp only [cmdStep] at h; split_ifs at h) <;>
    (injection h with h2; subst h2; rfl)

theorem decodeLoop_preserves_valid (rom : List Nat) :
    ∀ (f : Nat) (st : LoopSt) (r : DecodeStatus × LoopSt),
      validAdpcm st.adpcm → decodeLoop rom f st = some r →
      validAdpcm r.2.adpcm := by
  intro f
  induction f with
  | zero => intro st r hv h; simp [decodeLoop] at h
  | succ f ih =>
    intro st r hv h
    rw [decodeLoop] at h
    by_cases hp : st.pos < rom.length
    · rw [if_pos hp] at h
      by_cases hn : 0 < st.nc
      · rw [if_pos hn, if_neg (by omega)] at h
        apply ih _ _ _ h
        rw [stepRepeat_adpcm]
        exact nibbleStep_valid rom st
      · rw [if_neg hn] at h
        cases hcs : cmdStep rom st with
        | inl p =>
            rw [hcs] at h
            have h2 : some p = some r := h
            cases h2
            rw [(cmdStep_adpcm rom st).1 _ hcs]
            exact hv
        | inr st1 =>
            rw [hcs] at h
            apply ih _ _ _ h
            rw [(cmdStep_adpcm rom st).2 st1 hcs]
            exact hv
    · rw [if_neg hp] at h
      have h2 : some (DecodeStatus.truncated, st) = some r := h
      cases h2
      exact hv

/-- C4: the predictor invariant.  Every application of `decode_nibble`
leaves `current_sample` in `[−32768, 32767]` and the step index in
`[0, 15]` (for any incoming state); the decoding loop therefore keeps
the state valid from any valid start (the per-message initial state
`(0, 0)` is valid); and `step_table` is a full 16×16 table, so with a
valid state and a masked nibble (always `< 16`) it is only ever indexed
in bounds. -/
theorem adpcm_state_invariant :
    (∀ (n : Nat) (s : AdpcmState), validAdpcm (decode_nibble n s).1) ∧
    (∀ (rom : List Nat) (f : Nat) (st : LoopSt) (r : DecodeStatus × LoopSt),
      validAdpcm st.adpcm → decodeLoop rom f st = some r →
      validAdpcm r.2.adpcm) ∧
    validAdpcm ⟨0, 0⟩ ∧
    step_table.length = 16 ∧ (∀ row ∈ step_table, row.length = 16) ∧
    (∀ b : Nat, b / 16 % 16 < 16 ∧ b % 16 < 16) ∧
    (∀ s : AdpcmState, validAdpcm s → s.adpcm_state.toNat < step_table.length) :=
  ⟨decode_nibble_valid, decodeLoop_preserves_valid, by decide, by decide,
   by decide, fun b => ⟨by omega, by omega⟩,
   by
     intro s hv
     unfold validAdpcm at hv
     have hlen : step_table.length = 16 := by decide
     omega⟩

/-- Witness for `adpcm_state_invariant`: from the valid initial state,
decoding the stream `00` yields a valid final state. -/
theorem adpcm_state_invariant_witness :
    validAdpcm (⟨0, 0⟩ : AdpcmState) ∧
    validAdpcm ((DecodeStatus.finished,
      (⟨1, 0, 0, 0, 0, ⟨0, 0⟩, []⟩ : LoopSt)) : DecodeStatus × LoopSt).2.adpcm :=
  ⟨by decide,
   adpcm_state_invariant.2.1 [0] 1 ⟨0, 0, 0, 0, 0, ⟨0, 0⟩, []⟩
     (DecodeStatus.finished, ⟨1, 0, 0, 0, 0, ⟨0, 0⟩, []⟩) (by decide) (by decide)⟩

/-- C3 amended: the exact output-sample law of `decode_nibble`.  Writing
`cs` for the updated (clamped) `current_sample` and `diff` for the step
table difference that produced it: the emitted sample equals
`clamp(cs << 7)` whenever `cs ∈ [−256, 255]` (where it is just `cs·128`);
it is `32767` when `cs > 255` with `diff > 0` and `−32768` when
`cs < −256` with `diff < 0`; in the remaining cases it is the
two's-complement wrap of `cs·128`, which can differ from the clamp. -/
theorem output_sample_characterization (s : AdpcmState) (n : Nat)
    (hv : validAdpcm s) :
    (-256 ≤ (decode_nibble n s).1.current_sample →
      (decode_nibble n s).1.current_sample ≤ 255 →
      (decode_nibble n s).2
        = clampInt16 ((decode_nibble n s).1.current_sample * 128) ∧
      (decode_nibble n s).2 = (decode_nibble n s).1.current_sample * 128) ∧
    (255 < (decode_nibble n s).1.current_sample →
      0 < stepAt s.adpcm_state.toNat n →
      (decode_nibble n s).2 = 32767) ∧
    ((decode_nibble n s).1.current_sample < -256 →
      stepAt s.adpcm_state.toNat n < 0 →
      (decode_nibble n s).2 = -32768) ∧
    (255 < (decode_nibble n s).1.current_sample →
      stepAt s.adpcm_state.toNat n ≤ 0 →
      (decode_nibble n s).2
        = toInt16 ((decode_nibble n s).1.current_sample * 128)) ∧
    ((decode_nibble n s).1.current_sample < -256 →
      0 ≤ stepAt s.adpcm_state.toNat n →
      (decode_nibble n s).2
        = toInt16 ((decode_nibble n s).1.current_sample * 128)) := by
  unfold validAdpcm at hv
  have hfix : ¬ (s.adpcm_state < 0 ∨ 15 < s.adpcm_state) := by omega
  dsimp only [decode_nibble]
  rw [if_neg hfix]
  unfold toInt16 clampInt16
  refine ⟨?_, ?_, ?_, ?_, ?_⟩ <;>
    (intro h1 h2; split_ifs at h1 h2 ⊢ <;> omega)

/-- Witness for `output_sample_characterization` at the initial state
and nibble 0 (`cs` stays 0, within `[−256, 255]`). -/
theorem output_sample_characterization_witness :
    validAdpcm (⟨0, 0⟩ : AdpcmState) ∧
    ((decode_nibble 0 ⟨0, 0⟩).2
        = clampInt16 ((decode_nibble 0 ⟨0, 0⟩).1.current_sample * 128) ∧
     (decode_nibble 0 ⟨0, 0⟩).2
        = (decode_nibble 0 ⟨0, 0⟩).1.current_sample * 128) :=
  ⟨by decide,
   (output_sample_characterization ⟨0, 0⟩ 0 (by decide)).1 (by decide) (by decide)⟩

theorem string_of_length_zero (s : String) (h : s.length = 0) : s = "" := by
  cases s with
  | mk data =>
    cases data with
    | nil => rfl
    | cons a l => simp [String.length] at h

theorem buildComment_modeUnread (m : Nat) (uc : Option String) :
    buildComment false m uc = "# " ++ uc.getD "" := by
  cases uc with
  | none => rfl
  | some c =>
    by_cases hc : 0 < c.length
    · have hd : decide (0 < c.length) = true := by simpa using hc
      simp only [buildComment, Bool.false_and, hd, Option.getD_some]
      simp only [Bool.false_eq_true, if_false, Bool.false_or]
      rw [if_pos (by rfl : ("#" == "#") = true)]
      rfl
    · have hc0 : c = "" := string_of_length_zero c (by omega)
      subst hc0
      rfl

/-- C10: a record whose computed start address lies at or beyond the ROM
end.  List mode still prints the complete line — indices, mapped or
default filename base, padding tabs, and a comment field that is just
`"# "` followed by the map comment (no PCM marker is added because the
mode byte is unreadable) — while decode mode skips the record with a
warning and produces no output for it (`process_message` returns the
skip outcome and tells the caller to continue). -/
theorem oob_record_listed_but_skipped (rom : List Nat)
    (segStart off nextOff segIdx msgIdx : Nat)
    (mapping : Option (String × Option String))
    (h : rom.length ≤ segStart + off) :
    listLine rom segIdx msgIdx mapping (segStart + off)
      = toString segIdx ++ "\t" ++ toString msgIdx ++ "\t" ++
        (match mapping with
          | some p => p.1
          | none => defaultBase segIdx msgIdx) ++
        String.mk (List.replicate
          (tabsFor (match mapping with
            | some p => p.1
            | none => defaultBase segIdx msgIdx)) '\t') ++
        ("# " ++ (match mapping with
          | some p => p.2.getD ""
          | none => "")) ++ "\n" ∧
    (∀ (m : Nat) (uc : Option String),
      buildComment false m uc = "# " ++ uc.getD "") ∧
    process_message rom segStart off nextOff = some MsgOutcome.skippedOOB := by
  refine ⟨?_, buildComment_modeUnread, ?_⟩
  · simp only [listLine]
    rw [if_neg (by omega : ¬ segStart + off < rom.length)]
    rw [show (decide (segStart + off < rom.length)) = false from by
          simp; omega]
    rw [buildComment_modeUnread]
    cases mapping with
    | none => rfl
    | some p => rfl
  · simp only [process_message]
    rw [if_pos h]

/-- Witness for `oob_record_listed_but_skipped`: the empty ROM with a
mapped name and comment. -/
theorem oob_record_listed_but_skipped_witness :
    (([] : List Nat).length ≤ 0 + 0) ∧
    process_message [] 0 0 131072 = some MsgOutcome.skippedOOB :=
  ⟨by decide,
   (oob_record_listed_but_skipped [] 0 0 131072 0 0
     (some ("name", some "hello")) (by decide)).2.2⟩

theorem drop_getD_cons : ∀ (l : List Nat) (i : Nat), i < l.length →
    l.drop i = l.getD i 0 :: l.drop (i + 1)
  | [], i, h => by simp at h
  | _ :: _, 0, _ => rfl
  | _ :: l, i + 1, h => drop_getD_cons l i (by simpa using h)

theorem nibblesFrom_cons (rom : List Nat) (pos : Nat) (h : pos < rom.length) :
    nibblesFrom rom pos
      = rom.getD pos 0 / 16 % 16 :: rom.getD pos 0 % 16
          :: nibblesFrom rom (pos + 1) := by
  unfold nibblesFrom
  rw [drop_getD_cons rom pos h]
  rfl

theorem nibbleRun_len : ∀ (l : List Nat) (s : AdpcmState),
    (nibbleRun s l).2.length = l.length
  | [], _ => rfl
  | n :: rest, s => by
      simpa [nibbleRun] using nibbleRun_len rest (decode_nibble n s).1

theorem flatMap_pair_len :
    ∀ l : List Nat, (l.flatMap (fun b => [b / 16 % 16, b % 16])).length
      = 2 * l.length
  | [] => rfl
  | a :: l => by
      simp only [List.flatMap_cons, List.length_append, flatMap_pair_len l,
        List.length_cons, List.length_nil]
      omega

theorem nibblesFrom_len (rom : List Nat) (pos : Nat) :
    (nibblesFrom rom pos).length = 2 * (rom.length - pos) := by
  unfold nibblesFrom
  rw [flatMap_pair_len, List.length_drop]

theorem take_two_cons (a b : Nat) (l : List Nat) (m : Nat) (h : 2 ≤ m) :
    (a :: b :: l).take m = a :: b :: l.take (m - 2) := by
  obtain ⟨k, rfl⟩ : ∃ k, m = k + 2 := ⟨m - 2, by omega⟩
  simp [List.take_succ_cons]

theorem nibbleStep_one (rom : List Nat) (pos rs rcm : Nat) (s : AdpcmState)
    (buf : List Int) :
    nibbleStep rom ⟨pos, 1, 0, rs, rcm, s, buf⟩
      = ⟨pos + 1, 0, 0, rs, rcm,
         (decode_nibble (rom.getD pos 0 / 16 % 16) s).1,
         buf ++ [(decode_nibble (rom.getD pos 0 / 16 % 16) s).2]⟩ := rfl

theorem nibbleStep_many (rom : List Nat) (pos m rs rcm : Nat) (s : AdpcmState)
    (buf : List Int) (h2 : 2 ≤ m) :
    nibbleStep rom ⟨pos, m, 0, rs, rcm, s, buf⟩
      = ⟨pos + 1, m - 2, 0, rs, rcm,
         (decode_nibble (rom.getD pos 0 % 16)
           (decode_nibble (rom.getD pos 0 / 16 % 16) s).1).1,
         buf ++ [(decode_nibble (rom.getD pos 0 / 16 % 16) s).2,
                 (decode_nibble (rom.getD pos 0 % 16)
                   (decode_nibble (rom.getD pos 0 / 16 % 16) s).1).2]⟩ := by
  dsimp only [nibbleStep]
  rw [if_pos (show 0 < m - 1 by omega)]

/-- Running the nibble phase to completion: starting in the data state
with `m > 0` pending nibbles, no repeat scheduled, and the `⌈m/2⌉` data
bytes in range, the loop decodes exactly the first `m` nibbles of the
nibble stream at `pos` (so for odd `m` the low nibble of the final byte
is skipped) and re-enters the command state at `pos + ⌈m/2⌉`. -/
theorem nibblePhaseRun (rom : List Nat) :
    ∀ (m : Nat), 0 < m →
    ∀ (f pos rs rcm : Nat) (s : AdpcmState) (buf : List Int),
      pos + (m + 1) / 2 ≤ rom.length →
      decodeLoop rom (f + (m + 1) / 2) ⟨pos, m, 0, rs, rcm, s, buf⟩
        = decodeLoop rom f
            ⟨pos + (m + 1) / 2, 0, 0, rs, rcm,
             (nibbleRun s ((nibblesFrom rom pos).take m)).1,
             buf ++ (nibbleRun s ((nibblesFrom rom pos).take m)).2⟩ := by
  intro m
  induction m using Nat.strong_induction_on with
  | _ m ih =>
    intro hm f pos rs rcm s buf hlen
    have hpos : pos < rom.length := by omega
    rcases Nat.lt_or_ge m 3 with h3 | h3
    · have h12 : m = 1 ∨ m = 2 := by omega
      rcases h12 with h1 | h1 <;> subst h1
      · rw [show f + (1 + 1) / 2 = f + 1 from by norm_num,
            decodeLoop_succ_nibble rom f _ (show pos < rom.length from hpos)
              (show (0 : Nat) < 1 from by norm_num),
            nibbleStep_one rom pos rs rcm s buf,
            stepRepeat_rc0 _ rfl,
            nibblesFrom_cons rom pos hpos]
        norm_num [nibbleRun]
      · rw [show f + (2 + 1) / 2 = f + 1 from by norm_num,
            decodeLoop_succ_nibble rom f _ (show pos < rom.length from hpos)
              (show (0 : Nat) < 2 from by norm_num),
            nibbleStep_many rom pos 2 rs rcm s buf (by norm_num),
            stepRepeat_rc0 _ rfl,
            nibblesFrom_cons rom pos hpos]
        norm_num [nibbleRun]
    · rw [show f + (m + 1) / 2 = (f + (m - 2 + 1) / 2) + 1 from by omega,
          decodeLoop_succ_nibble rom _ _ (show pos < rom.length from hpos)
            (show 0 < m from hm),
          nibbleStep_many rom pos m rs rcm s buf (by omega),
          stepRepeat_rc0 _ rfl,
          ih (m - 2) (by omega) (by omega) f (pos + 1) rs rcm _ _ (by omega),
          nibblesFrom_cons rom pos hpos,
          take_two_cons _ _ _ m (by omega)]
      simp only [nibbleRun]
      rw [show pos + 1 + (m - 2 + 1) / 2 = pos + (m + 1) / 2 from by omega,
          List.append_assoc]
      rfl

/-- C6: a long-block command byte in `0x80..0xBF` followed by length
byte `n`, with the `⌈(n+1)/2⌉ = (n+2)/2` data bytes in range, makes the
decoder emit exactly `n+1` samples — the decode of the first `n+1`
nibbles of the data, so for even `n` (odd `n+1`) only the high nibble of
the final byte is used — and resume reading commands exactly
`⌈(n+1)/2⌉` bytes after the data start. -/
theorem long_block_sample_count (rom : List Nat) (f pos rs rcm n : Nat)
    (s : AdpcmState) (buf : List Int)
    (hc1 : 0x80 ≤ rom.getD pos 0) (hc2 : rom.getD pos 0 ≤ 0xBF)
    (hn : rom.getD (pos + 1) 0 = n)
    (hlen : pos + 2 + (n + 2) / 2 ≤ rom.length) :
    decodeLoop rom (f + ((n + 2) / 2 + 1)) ⟨pos, 0, 0, rs, rcm, s, buf⟩
      = decodeLoop rom f
          ⟨pos + 2 + (n + 2) / 2, 0, 0, rs, rcm,
           (nibbleRun s ((nibblesFrom rom (pos + 2)).take (n + 1))).1,
           buf ++ (nibbleRun s ((nibblesFrom rom (pos + 2)).take (n + 1))).2⟩ ∧
    (nibbleRun s ((nibblesFrom rom (pos + 2)).take (n + 1))).2.length = n + 1 := by
  have hpos : pos < rom.length := by omega
  constructor
  · have step1 : decodeLoop rom ((f + (n + 2) / 2) + 1) ⟨pos, 0, 0, rs, rcm, s, buf⟩
        = decodeLoop rom (f + (n + 2) / 2)
            ⟨pos + 1 + 1, n + 1, 0, rs, rcm, s, buf⟩ := by
      rw [decodeLoop_succ_cmd rom _ _ (show pos < rom.length from hpos) rfl,
          cmdStep_longBlock rom _ (rom.getD pos 0) rfl hc1 hc2
            (show pos + 1 < rom.length from by omega)]
      rw [show rom.getD (pos + 1) 0 = n from hn]
    rw [show f + ((n + 2) / 2 + 1) = (f + (n + 2) / 2) + 1 from by omega, step1]
    exact nibblePhaseRun rom (n + 1) (by omega) f (pos + 1 + 1) rs rcm s buf
      (by omega)
  · rw [nibbleRun_len, List.length_take, nibblesFrom_len]
    omega

/-- Witness for `long_block_sample_count`: the stream `80 01 12`
(long block, `n = 1`, one data byte, two samples). -/
theorem long_block_sample_count_witness :
    (0x80 ≤ [(0x80 : Nat), 0x01, 0x12].getD 0 0 ∧
     [(0x80 : Nat), 0x01, 0x12].getD 0 0 ≤ 0xBF ∧
     [(0x80 : Nat), 0x01, 0x12].getD (0 + 1) 0 = 1 ∧
     0 + 2 + (1 + 2) / 2 ≤ [(0x80 : Nat), 0x01, 0x12].length) ∧
    (nibbleRun ⟨0, 0⟩
      ((nibblesFrom [0x80, 0x01, 0x12] (0 + 2)).take (1 + 1))).2.length
      = 1 + 1 :=
  ⟨⟨by decide, by decide, by decide, by decide⟩,
   (long_block_sample_count [0x80, 0x01, 0x12] 0 0 0 0 1 ⟨0, 0⟩ []
     (by decide) (by decide) (by decide) (by decide)).2⟩

end Voiceware
